import Mathlib

/-!
Verification development for the invoice model-merge tool
(src/USERmodel-merge-tool/app.py).

The pipeline of app.py is embedded shallowly:
  * column detection (detect_column, app.py lines 57-65),
  * identifier cleaning, the missing-marker replacement and forward fill
    (lines 128-132),
  * numeric coercion with pd.to_numeric(errors="coerce").fillna(0)
    (lines 135-146),
  * the groupby/aggregation dictionary (lines 149-161),
  * the Total_QTY / Total_Amount helper columns (lines 164-168),
  * the min-quantity and model-substring filters (lines 171-179),
  * sorting (lines 182-194).

Modelling conventions:
  * A raw cell is represented by the string produced by Python's str() on it
    (the identifier column is passed through .astype(str) by the code, and
    numeric-column cells are fed to pd.to_numeric which accepts strings and
    numbers alike; a numeric raw cell is represented by its decimal
    rendering).
  * pd.to_numeric is external library code; it is modelled on the decimal
    fragment the pipeline exercises: optional surrounding whitespace,
    optional sign, digits with an optional decimal point.  Exponent forms
    and special floats are outside the model.
  * pandas groupby uses sort=True, so group keys come out sorted ascending
    by Python string comparison (code-point lexicographic), and groupby
    drops rows whose key is NA (dropna=True).
  * df.sort_values runs with the default kind, an unstable quicksort, so
    the program guarantees only that its output is ordered on the sort key
    and is a permutation of the input rows; the relative order of rows that
    tie on the key is unspecified.  The executable model refines the step
    by the insertion sort sortLe, but theorems about the sort step assert
    only order and permutation facts shared by every sorting kind.  The
    concrete runs below involve no tied numeric keys except the tie
    counterexample, where numpy's introsort on two equal keys performs no
    swap and agrees with sortLe.
  * str.contains(search, case=False, na=False) uses regex search.  The
    regex engine is modelled on the fragment consisting of literal
    characters and the '.' wildcard, with IGNORECASE lowering.
  * Character case maps are the ASCII ones.
  * The embedding assumes the detected numeric-role columns differ from the
    identifier column (pandas raises when the groupby key also appears in
    the aggregation dictionary); theorems that need this state it as a
    hypothesis.
-/

/-- Empty string constant, used for defaults. -/
def emptyStr : String := ""

/-- Uppercase a character list (ASCII case map, models Python str.upper). -/
def upperL (cs : List Char) : List Char := cs.map Char.toUpper

/-- Lowercase a character list (ASCII case map, models Python str.lower). -/
def lowerL (cs : List Char) : List Char := cs.map Char.toLower

/-- Whether the first list is an initial segment of the second. -/
def leadsList : List Char → List Char → Bool
  | [], _ => true
  | _ :: _, [] => false
  | a :: as, b :: bs => a == b && leadsList as bs

/-- Whether needle occurs contiguously inside hay (Python's `in` on str). -/
def isSubstringL (needle : List Char) : List Char → Bool
  | [] => needle.isEmpty
  | b :: bs => leadsList needle (b :: bs) || isSubstringL needle bs

/-- ASCII whitespace recognizer (models Python str.strip's default set on
the ASCII range). -/
def isWsChar (c : Char) : Bool :=
  c == ' ' || c == '\t' || c == '\n' || c == '\r' || c == '\x0b' || c == '\x0c'

/-- Strip leading and trailing whitespace from a character list. -/
def trimL (cs : List Char) : List Char :=
  ((cs.dropWhile isWsChar).reverse.dropWhile isWsChar).reverse

/-- Python str.strip on a string. -/
def strTrim (s : String) : String := String.mk (trimL s.data)

/-- Code-point lexicographic order on character lists (Python str <=). -/
def lexLe : List Char → List Char → Bool
  | [], _ => true
  | _ :: _, [] => false
  | a :: as, b :: bs => if a == b then lexLe as bs else decide (a.toNat < b.toNat)

/-- Python string comparison a <= b by code points. -/
def strLeB (a b : String) : Bool := lexLe a.data b.data

/-- Embeds detect_column (app.py lines 57-65): for each keyword in order,
return the first column whose upper-cased name contains the upper-cased
keyword as a substring; None when no keyword matches any column. -/
def detect_column (df_cols : List String) : List String → Option String
  | [] => none
  | key :: rest =>
    match df_cols.find? (fun c => isSubstringL (upperL key.data) (upperL c.data)) with
    | some c => some c
    | none => detect_column df_cols rest

/-- Identifier keyword list (app.py line 94). -/
def modelKeywords : List String := [ "MODEL", "STYLE", "ITEM", "CODE" ]

/-- Quantity keyword list (app.py line 95). -/
def qtyKeywords : List String := [ "QTY", "QUANTITY", "PCS" ]

/-- Price keyword list (app.py line 96). -/
def priceKeywords : List String := [ "PRICE", "U.PRICE", "UNIT" ]

/-- Amount keyword list (app.py line 97). -/
def amountKeywords : List String := [ "AMOUNT", "TOTAL", "VALUE" ]

/-- The exact replacement list of app.py lines 129-131. -/
def missingMarkers : List String := [ "", "nan", "NaN", "NONE", "None" ]

/-- Embeds the identifier-cell cleaning of app.py lines 128-131: strip the
str() form, then replace the values of missingMarkers by NA (none). -/
def cleanIdCell (s : String) : Option String :=
  let t : String := strTrim s
  if t ∈ missingMarkers then none else some t

/-- Forward fill with an explicit carry: none cells are replaced by the
last value seen, some cells update the carry. -/
def ffillFrom (last : Option String) : List (Option String) → List (Option String)
  | [] => []
  | none :: rest => last :: ffillFrom last rest
  | some v :: rest => some v :: ffillFrom (some v) rest

/-- Embeds fillna(method="ffill") on the identifier column (app.py 132). -/
def ffill (xs : List (Option String)) : List (Option String) := ffillFrom none xs

/-- Numeric value of a decimal digit character. -/
def digitVal (c : Char) : Nat := c.toNat - 48

/-- Value of a digit string read in base 10. -/
def digitsVal (cs : List Char) : Nat := cs.foldl (fun acc c => 10 * acc + digitVal c) 0

/-- Parse an unsigned decimal literal: digits with an optional decimal
point, at least one digit present. -/
def parseUnsigned (cs : List Char) : Option Rat :=
  let ip := cs.takeWhile Char.isDigit
  let rest := cs.dropWhile Char.isDigit
  match rest with
  | [] => if ip.isEmpty then none else some ((digitsVal ip : Nat) : Rat)
  | '.' :: fp =>
    if fp.all Char.isDigit && (!ip.isEmpty || !fp.isEmpty) then
      some (((digitsVal ip : Nat) : Rat) + ((digitsVal fp : Nat) : Rat) / ((10 : Rat) ^ fp.length))
    else none
  | _ => none

/-- Models pd.to_numeric(value, errors="coerce") on its decimal fragment:
strip whitespace, optional sign, digits with optional decimal point; none
models the NaN produced for unparsable input. -/
def to_numeric (s : String) : Option Rat :=
  match trimL s.data with
  | '+' :: cs => parseUnsigned cs
  | '-' :: cs => (parseUnsigned cs).map (fun q => -q)
  | cs => parseUnsigned cs

/-- Embeds pd.to_numeric(col, errors="coerce").fillna(0) on one cell
(app.py lines 135-146). -/
def coerceNumeric (s : String) : Rat := (to_numeric s).getD 0

/-- Cell of the normalized working table: a passed-through string, a
coerced number, or pandas NA. -/
inductive Cell where
  | str (s : String)
  | num (q : Rat)
  | na
deriving DecidableEq, Repr

/-- Numeric reading of a cell (numeric cells only; 0 otherwise). -/
def cellNum : Cell → Rat
  | Cell.num q => q
  | _ => 0

/-- A loaded table: column names in left-to-right order and rows of raw
cells aligned with the columns. -/
structure RawTable where
  cols : List String
  rows : List (List String)
deriving DecidableEq, Repr

/-- The raw values of a named column, top to bottom. -/
def colValues (t : RawTable) (c : String) : List String :=
  t.rows.map (fun r => r.getD (t.cols.indexOf c) emptyStr)

/-- Identifier column after str() + strip + missing-marker replacement
(app.py lines 128-131), before forward fill. -/
def cleanedIds (t : RawTable) (m : String) : List (Option String) :=
  (colValues t m).map cleanIdCell

/-- Identifier column after the forward-fill repair (app.py line 132). -/
def repairedIds (t : RawTable) (m : String) : List (Option String) :=
  ffill (cleanedIds t m)

/-- Aggregation kind registered in agg_dict: "sum" or "first". -/
inductive AggKind where
  | sum
  | first
deriving DecidableEq, Repr

/-- Python dict assignment d[c] = k on an association list: overwrite in
place when the key is present, append otherwise. -/
def setAgg (d : List (String × AggKind)) (c : String) (k : AggKind) : List (String × AggKind) :=
  if d.any (fun p => p.1 == c) then d.map (fun p => if p.1 == c then (c, k) else p)
  else d ++ [(c, k)]

/-- The loop of app.py lines 157-159: every column other than the group key
that is not yet in agg_dict gets "first". -/
def addMissing (m : String) : List (String × AggKind) → List String → List (String × AggKind)
  | d, [] => d
  | d, c :: cs =>
    addMissing m (if c != m && !d.any (fun p => p.1 == c) then d ++ [(c, AggKind.first)] else d) cs

/-- Embeds the construction of agg_dict (app.py lines 149-159): qty gets
sum, then price gets first, then amount gets sum, each overwriting any
earlier registration for the same column, then remaining columns first. -/
def buildAggDict (cols : List String) (m : String) (qc pc ac : Option String) : List (String × AggKind) :=
  let d0 : List (String × AggKind) := []
  let d1 := match qc with | some c => setAgg d0 c AggKind.sum | none => d0
  let d2 := match pc with | some c => setAgg d1 c AggKind.first | none => d1
  let d3 := match ac with | some c => setAgg d2 c AggKind.sum | none => d2
  addMissing m d3 cols

/-- The identifier column rendered as working-table cells (NA when the
repaired identifier is still missing). -/
def idCells (ids : List (Option String)) : List Cell :=
  ids.map (fun rid => match rid with | some v => Cell.str v | none => Cell.na)

/-- Column c of the working table (app.py lines 125-146): the identifier
column is the repaired identifier column, numeric-role columns are coerced
with fillna(0), all other columns pass through. -/
def workingCol (t : RawTable) (m : String) (qc pc ac : Option String) (ids : List (Option String)) (c : String) : List Cell :=
  if c = m then idCells ids
  else if qc == some c || pc == some c || ac == some c then
    (colValues t c).map (fun s => Cell.num (coerceNumeric s))
  else (colValues t c).map Cell.str

/-- Stable insertion into a list: x is placed before the first element y
with le x y, hence after any earlier element that ties with x. -/
def insertLe {α : Type} (le : α → α → Bool) (x : α) : List α → List α
  | [] => [x]
  | y :: ys => if le x y then x :: y :: ys else y :: insertLe le x ys

/-- Stable insertion sort with a boolean comparison. -/
def sortLe {α : Type} (le : α → α → Bool) : List α → List α
  | [] => []
  | x :: xs => insertLe le x (sortLe le xs)

/-- Group keys of pandas groupby(model_col): the distinct non-NA repaired
identifiers, sorted ascending (groupby sort=True, dropna=True). -/
def groupKeys (ids : List (Option String)) : List String :=
  sortLe strLeB (ids.filterMap id).dedup

/-- The cells of one column restricted to the rows of group k, in original
row order. -/
def selectGroup {α : Type} (ids : List (Option String)) (xs : List α) (k : String) : List α :=
  ((ids.zip xs).filter (fun p => p.1 == some k)).map (fun p => p.2)

/-- Reduce one group's column by the registered aggregation kind. -/
def aggCell (k : AggKind) (cs : List Cell) : Cell :=
  match k with
  | AggKind.sum => Cell.num ((cs.map cellNum).sum)
  | AggKind.first => cs.headD Cell.na

/-- One aggregated output row: the group key plus the aggregated value of
every agg_dict column. -/
structure GRow where
  key : String
  cells : List (String × Cell)
deriving DecidableEq, Repr

/-- Embeds grouped = working_df.groupby(model_col, as_index=False).agg(agg_dict)
(app.py line 161). -/
def groupedOf (t : RawTable) (m : String) (qc pc ac : Option String) : List GRow :=
  let ids := repairedIds t m
  let dict := buildAggDict t.cols m qc pc ac
  (groupKeys ids).map (fun k =>
    { key := k
      cells := dict.map (fun p => (p.1, aggCell p.2 (selectGroup ids (workingCol t m qc pc ac ids p.1) k))) })

/-- Aggregated value of a named column in an output row. -/
def lookupCell (g : GRow) (c : String) : Cell :=
  match g.cells.find? (fun p => p.1 == c) with
  | some p => p.2
  | none => Cell.na

/-- The Total_QTY helper column (app.py line 166): a copy of the aggregated
quantity column. -/
def totalQtyOf (g : GRow) (qc : String) : Rat := cellNum (lookupCell g qc)

/-- The Total_Amount helper column (app.py line 168): a copy of the
aggregated amount column. -/
def totalAmountOf (g : GRow) (ac : String) : Rat := cellNum (lookupCell g ac)

/-- Embeds the min-quantity filter (app.py lines 171-172): active only when
min_qty > 0 and a quantity column was detected. -/
def filterMinQty (rows : List GRow) (qc : Option String) (minQty : Rat) : List GRow :=
  match qc with
  | some q => if 0 < minQty then rows.filter (fun g => minQty ≤ totalQtyOf g q) else rows
  | none => rows

/-- Regex match of a literal-and-dot pattern against a prefix of the text,
lowering both sides (IGNORECASE). -/
def patMatchAt : List Char → List Char → Bool
  | [], _ => true
  | _ :: _, [] => false
  | p :: ps, c :: cs => (p == '.' || p.toLower == c.toLower) && patMatchAt ps cs

/-- Models re.search with IGNORECASE on the literal-and-dot regex fragment:
the pattern matches at some position of the text. -/
def reSearch (pat : List Char) : List Char → Bool
  | [] => patMatchAt pat []
  | c :: cs => patMatchAt pat (c :: cs) || reSearch pat cs

/-- Embeds the model-substring filter (app.py lines 174-179): skipped for
the empty string, otherwise str.contains(search_model, case=False)
i.e. a case-insensitive regex search against the group key. -/
def filterSearch (rows : List GRow) (pat : String) : List GRow :=
  if pat = emptyStr then rows
  else rows.filter (fun g => reSearch pat.data g.key.data)

/-- The sort key offered in the sidebar (app.py lines 117-122). -/
inductive SortBy where
  | model
  | totalQ
  | totalA
deriving DecidableEq, Repr

/-- Embeds the sorting step (app.py lines 182-194): Total_QTY and
Total_Amount sort descending when their role is present, everything else
falls back to the identifier ascending.  sort_values(kind=quicksort) is
refined by the insertion sort sortLe; only the key order and the
permutation of the result, guarantees shared by every sorting kind, are
asserted about this step. -/
def sortRows (rows : List GRow) (qc ac : Option String) (sb : SortBy) : List GRow :=
  match sb, qc, ac with
  | SortBy.totalQ, some q, _ => sortLe (fun a b => decide (totalQtyOf b q ≤ totalQtyOf a q)) rows
  | SortBy.totalA, _, some a => sortLe (fun x y => decide (totalAmountOf y a ≤ totalAmountOf x a)) rows
  | _, _, _ => sortLe (fun a b => strLeB a.key b.key) rows

/-- Fatal pipeline errors (app.py lines 99-101). -/
inductive MergeError where
  | missingRequiredColumn
deriving DecidableEq, Repr

/-- The filtered and sorted result table for known role columns. -/
def mergedRows (t : RawTable) (m : String) (qc pc ac : Option String) (minQty : Rat) (pat : String) (sb : SortBy) : List GRow :=
  sortRows (filterSearch (filterMinQty (groupedOf t m qc pc ac) qc minQty) pat) qc ac sb

/-- Embeds the whole pipeline of app.py for one uploaded table: detect the
role columns, stop with an error when no identifier column is found,
otherwise normalize, aggregate, filter and sort. -/
def runPipeline (t : RawTable) (minQty : Rat) (pat : String) (sb : SortBy) : Except MergeError (List GRow) :=
  match detect_column t.cols modelKeywords with
  | none => Except.error MergeError.missingRequiredColumn
  | some m =>
    Except.ok (mergedRows t m (detect_column t.cols qtyKeywords)
      (detect_column t.cols priceKeywords) (detect_column t.cols amountKeywords) minQty pat sb)

/-- Round to two decimal places (half up; the spec fixes no tie rule). -/
def roundTo2 (q : Rat) : Rat := (((q * 100 + 1 / 2).floor : Int) : Rat) / 100

/-- Quantity total of an output row for an optional quantity role (0 when
the role is absent, as in the spec's AggregatedRow). -/
def totalQtyRole (g : GRow) (qc : Option String) : Rat :=
  match qc with
  | some q => totalQtyOf g q
  | none => 0

/-- Amount total of an output row for an optional amount role. -/
def totalAmountRole (g : GRow) (ac : Option String) : Rat :=
  match ac with
  | some a => totalAmountOf g a
  | none => 0

/-- Modelled from the spec: app.py under src computes no unit-price column;
the spec's derived field "unit price = amount-sum / quantity-sum, rounded
to 2 decimal places", reported as 0 when the quantity sum is 0, is modelled
here on top of the aggregated row. -/
def unitPriceOf (g : GRow) (qc ac : Option String) : Rat :=
  if totalQtyRole g qc = 0 then 0 else roundTo2 (totalAmountRole g ac / totalQtyRole g qc)

deriving instance DecidableEq for Except

/-- Specification form of column detection, following the claim's words:
the earliest keyword in the ordered list that matches any column selects
the leftmost matching column; absent when no keyword matches a column. -/
def detect_column_spec (df_cols keywords : List String) : Option String :=
  match keywords.find? (fun k => df_cols.any (fun c => isSubstringL (upperL k.data) (upperL c.data))) with
  | some k => df_cols.find? (fun c => isSubstringL (upperL k.data) (upperL c.data))
  | none => none

/-- C4 counterexample: the trimmed cell value "NAN" case-insensitively
equals "nan", yet the cleaning pass of app.py lines 128-131 keeps it as a
regular value instead of treating it as missing. -/
theorem cleanIdCell_NAN_kept :
    lowerL (strTrim ( "NAN" )).data = ( "nan" : String ).data ∧
    cleanIdCell ( "NAN" ) = some ( "NAN" ) := by
  with_unfolding_all decide

/-- C4 (amended): an identifier cell is treated as missing exactly when its
trimmed string form is one of the five exact strings "", "nan", "NaN",
"NONE" and "None"; other capitalizations such as "NAN" are kept. -/
theorem cleanIdCell_missing_iff (s : String) :
    cleanIdCell s = none ↔ strTrim s ∈ missingMarkers := by
  unfold cleanIdCell
  by_cases h : strTrim s ∈ missingMarkers <;> simp [h]

/-- C6: numeric-role cells are parsed as decimal numbers and a cell whose
parse fails is replaced by 0 rather than raising; in particular "abc"
coerces to 0 and " 12.50 " coerces to 12.5. -/
theorem coerceNumeric_fallback :
    (∀ s : String, to_numeric s = none → coerceNumeric s = 0) ∧
    to_numeric ( "abc" ) = none ∧
    coerceNumeric ( "abc" ) = 0 ∧
    coerceNumeric ( " 12.50 " ) = 25 / 2 := by
  refine ⟨?_, ?_, ?_, ?_⟩
  · intro s h
    unfold coerceNumeric
    rw [h]
    rfl
  · with_unfolding_all decide
  · with_unfolding_all decide
  · with_unfolding_all decide

/-- Witness for coerceNumeric_fallback at the concrete cell "abc". -/
theorem coerceNumeric_fallback_witness :
    to_numeric ( "abc" ) = none ∧ coerceNumeric ( "abc" ) = 0 :=
  ⟨coerceNumeric_fallback.2.1,
    coerceNumeric_fallback.1 ( "abc" ) coerceNumeric_fallback.2.1⟩

/-- Detection returns none when no keyword matches any column. -/
theorem detect_column_eq_none (df_cols : List String) (kws : List String)
    (h : ∀ k ∈ kws, ∀ c ∈ df_cols, isSubstringL (upperL k.data) (upperL c.data) = false) :
    detect_column df_cols kws = none := by
  induction kws with
  | nil => rfl
  | cons k ks ih =>
    have hf : df_cols.find? (fun c => isSubstringL (upperL k.data) (upperL c.data)) = none := by
      rw [List.find?_eq_none]
      intro c hc
      simp [h k (by simp) c hc]
    unfold detect_column
    rw [hf]
    exact ih (fun k2 hk2 c hc => h k2 (by simp [hk2]) c hc)

/-- C3: when no column name contains any identifier keyword (MODEL, STYLE,
ITEM, CODE), the pipeline stops with the missing-required-column error and
produces no output rows. -/
theorem pipeline_missing_identifier (t : RawTable) (minQty : Rat) (pat : String) (sb : SortBy)
    (h : ∀ c ∈ t.cols, ∀ k ∈ modelKeywords, isSubstringL (upperL k.data) (upperL c.data) = false) :
    runPipeline t minQty pat sb = Except.error MergeError.missingRequiredColumn := by
  unfold runPipeline
  rw [detect_column_eq_none t.cols modelKeywords (fun k hk c hc => h c hc k hk)]

/-- Witness for pipeline_missing_identifier on a table with no identifier
column. -/
theorem pipeline_missing_identifier_witness :
    runPipeline { cols := [ "FOO", "QTY" ], rows := [ [ "x", "1" ] ] } 0 emptyStr SortBy.model
      = Except.error MergeError.missingRequiredColumn :=
  pipeline_missing_identifier _ _ _ _ (by with_unfolding_all decide)

/-- C2: for every column list and keyword list, the imperative double loop
of detect_column selects exactly what the spec describes: the earliest
keyword that matches any column, and among its matches the leftmost
column; none when no keyword matches. -/
theorem detect_column_eq_spec (df_cols : List String) :
    ∀ keywords, detect_column df_cols keywords = detect_column_spec df_cols keywords := by
  intro keywords
  induction keywords with
  | nil => rfl
  | cons k ks ih =>
    by_cases h : df_cols.any (fun c => isSubstringL (upperL k.data) (upperL c.data)) = true
    · have h2 : (df_cols.find? (fun c => isSubstringL (upperL k.data) (upperL c.data))).isSome = true := by
        rw [List.find?_isSome]
        simpa using List.any_eq_true.mp h
      obtain ⟨c, hc⟩ := Option.isSome_iff_exists.mp h2
      unfold detect_column detect_column_spec
      rw [List.find?_cons_of_pos ks h, hc]
      exact hc.symm
    · have hf : df_cols.find? (fun c => isSubstringL (upperL k.data) (upperL c.data)) = none := by
        rw [List.find?_eq_none]
        intro c hc
        have := List.any_eq_false.mp (by simpa using h) c hc
        simp [this]
      have hspec : detect_column_spec df_cols (k :: ks) = detect_column_spec df_cols ks := by
        unfold detect_column_spec
        rw [List.find?_cons_of_neg ks (by simpa using h)]
      unfold detect_column
      rw [hf, hspec]
      exact ih

/-- C1: for every row of the pipeline's output, the spec-modelled unit
price equals the amount total divided by the quantity total rounded to two
decimal places when the quantity total is nonzero, and is 0 when the
quantity total is 0, never a division fault. -/
theorem unitPrice_invariant (t : RawTable) (minQty : Rat) (pat : String) (sb : SortBy)
    (l : List GRow) (_h : runPipeline t minQty pat sb = Except.ok l) (g : GRow) (_hg : g ∈ l) :
    (totalQtyRole g (detect_column t.cols qtyKeywords) ≠ 0 →
      unitPriceOf g (detect_column t.cols qtyKeywords) (detect_column t.cols amountKeywords)
        = roundTo2 (totalAmountRole g (detect_column t.cols amountKeywords)
            / totalQtyRole g (detect_column t.cols qtyKeywords))) ∧
    (totalQtyRole g (detect_column t.cols qtyKeywords) = 0 →
      unitPriceOf g (detect_column t.cols qtyKeywords) (detect_column t.cols amountKeywords) = 0) := by
  constructor
  · intro hne
    unfold unitPriceOf
    rw [if_neg hne]
  · intro hz
    unfold unitPriceOf
    rw [if_pos hz]

/-- Witness for unitPrice_invariant on a one-row table. -/
theorem unitPrice_invariant_witness :
    unitPriceOf { key := ( "M1" ), cells := [ (( "QTY" : String ), Cell.num 5), (( "AMOUNT" : String ), Cell.num 100) ] }
        (detect_column [ "MODEL", "QTY", "AMOUNT" ] qtyKeywords)
        (detect_column [ "MODEL", "QTY", "AMOUNT" ] amountKeywords)
      = roundTo2 (totalAmountRole { key := ( "M1" ), cells := [ (( "QTY" : String ), Cell.num 5), (( "AMOUNT" : String ), Cell.num 100) ] }
            (detect_column [ "MODEL", "QTY", "AMOUNT" ] amountKeywords)
          / totalQtyRole { key := ( "M1" ), cells := [ (( "QTY" : String ), Cell.num 5), (( "AMOUNT" : String ), Cell.num 100) ] }
            (detect_column [ "MODEL", "QTY", "AMOUNT" ] qtyKeywords)) :=
  (unitPrice_invariant { cols := [ "MODEL", "QTY", "AMOUNT" ], rows := [ [ "M1", "5", "100" ] ] }
      0 emptyStr SortBy.model
      [ { key := ( "M1" ), cells := [ (( "QTY" : String ), Cell.num 5), (( "AMOUNT" : String ), Cell.num 100) ] } ]
      (by with_unfolding_all decide)
      { key := ( "M1" ), cells := [ (( "QTY" : String ), Cell.num 5), (( "AMOUNT" : String ), Cell.num 100) ] }
      (by with_unfolding_all decide)).1
    (by with_unfolding_all decide)

/-- Matching an empty pattern succeeds on every text. -/
theorem isSubstringL_nil (hay : List Char) : isSubstringL [] hay = true := by
  induction hay with
  | nil => rfl
  | cons b bs ih => simp [isSubstringL, leadsList]

/-- On patterns without the dot wildcard, anchored regex matching is a
prefix comparison of the lowered character lists. -/
theorem patMatchAt_no_dot (pat : List Char) (hp : pat.all (fun c => c != '.') = true) :
    ∀ s, patMatchAt pat s = leadsList (lowerL pat) (lowerL s) := by
  induction pat with
  | nil => intro s; cases s <;> rfl
  | cons p ps ih =>
    have hp2 : (p != '.') = true ∧ ps.all (fun c => c != '.') = true := by
      simpa using hp
    have hps := hp2.2
    have hpd : (p == '.') = false := by
      simpa using hp2.1
    intro s
    cases s with
    | nil => rfl
    | cons c cs =>
      show ((p == '.' || p.toLower == c.toLower) && patMatchAt ps cs)
        = ((p.toLower == c.toLower) && leadsList (lowerL ps) (lowerL cs))
      rw [hpd, ih hps cs, Bool.false_or]

/-- On patterns without the dot wildcard, the modelled regex search is
case-insensitive substring containment. -/
theorem reSearch_no_dot (pat : List Char) (hp : pat.all (fun c => c != '.') = true) :
    ∀ s, reSearch pat s = isSubstringL (lowerL pat) (lowerL s) := by
  intro s
  induction s with
  | nil =>
    show patMatchAt pat [] = (lowerL pat).isEmpty
    cases pat <;> rfl
  | cons c cs ih =>
    show (patMatchAt pat (c :: cs) || reSearch pat cs)
      = (leadsList (lowerL pat) (lowerL (c :: cs)) || isSubstringL (lowerL pat) (lowerL cs))
    rw [patMatchAt_no_dot pat hp, ih]

/-- C9 counterexample: with the search string "." the filter keeps the
group "AB" although "AB" does not contain "." as a substring in any case
combination; str.contains interprets the string as a regular expression. -/
theorem filterSearch_dot_kept :
    (runPipeline { cols := [ "MODEL" ], rows := [ [ "AB" ] ] } 0 ( "." ) SortBy.model).toOption.map
        (fun l => l.map (fun g => g.key)) = some [ "AB" ] ∧
    isSubstringL (lowerL ( "." : String ).data) (lowerL ( "AB" : String ).data) = false := by
  with_unfolding_all decide

/-- C9 (amended): the model filter treats the search string as a
case-insensitive regular expression; the empty default drops no group, and
for a pattern free of regex metacharacters the filter keeps exactly the
groups whose identifier contains the pattern case-insensitively. -/
theorem filterSearch_characterization (rows : List GRow) (pat : String) :
    (pat = emptyStr → filterSearch rows pat = rows) ∧
    (pat.data.all (fun c => c != '.') = true →
      filterSearch rows pat
        = rows.filter (fun g => isSubstringL (lowerL pat.data) (lowerL g.key.data))) := by
  constructor
  · intro h
    simp [filterSearch, h]
  · intro hp
    by_cases he : pat = emptyStr
    · subst he
      have : ∀ g : GRow, isSubstringL (lowerL (emptyStr.data)) (lowerL g.key.data) = true := by
        intro g
        exact isSubstringL_nil _
      simp [filterSearch, this]
    · unfold filterSearch
      rw [if_neg he]
      exact List.filter_congr (fun g _ => reSearch_no_dot pat.data hp g.key.data)

/-- Witness for filterSearch_characterization with pattern "ab" on one row. -/
theorem filterSearch_characterization_witness :
    filterSearch [ { key := ( "AB" ), cells := [] } ] ( "ab" )
      = [ { key := ( "AB" : String ), cells := [] } ].filter
          (fun g => isSubstringL (lowerL ( "ab" : String ).data) (lowerL g.key.data)) :=
  (filterSearch_characterization [ { key := ( "AB" ), cells := [] } ] ( "ab" )).2
    (by with_unfolding_all decide)

/-- Unfolding of forward fill over one cell: the head becomes the cell or
else the carry, which also becomes the new carry. -/
theorem ffillFrom_cons (last a : Option String) (xs : List (Option String)) :
    ffillFrom last (a :: xs) = (a.or last) :: ffillFrom (a.or last) xs := by
  cases a <;> rfl

/-- Last element of a cons in terms of the tail's last element. -/
theorem getLast?_cons_or {α : Type} (v : α) (l : List α) :
    (v :: l).getLast? = l.getLast?.or (some v) := by
  induction l generalizing v with
  | nil => rfl
  | cons b bs ih =>
    rw [List.getLast?_cons_cons, ih b]
    cases bs.getLast? <;> rfl

/-- Value of forward fill at index i under a carry: the last non-missing
entry among the first i+1 cells, or else the carry. -/
theorem ffillFrom_getD (xs : List (Option String)) :
    ∀ (last : Option String) (i : Nat), i < xs.length →
      (ffillFrom last xs).getD i none = ((xs.take (i+1)).filterMap id).getLast?.or last := by
  induction xs with
  | nil =>
    intro last i h
    simp at h
  | cons a rest ih =>
    intro last i h
    rw [ffillFrom_cons]
    cases i with
    | zero =>
      show a.or last = (((a :: rest).take 1).filterMap id).getLast?.or last
      cases a <;> rfl
    | succ j =>
      have hj : j < rest.length := by simpa using h
      show (ffillFrom (a.or last) rest).getD j none
        = (((a :: rest).take (j+2)).filterMap id).getLast?.or last
      rw [ih (a.or last) j hj, List.take_succ_cons]
      cases a with
      | none =>
        show ((rest.take (j+1)).filterMap id).getLast?.or (Option.or none last)
          = ((none :: rest.take (j+1)).filterMap id).getLast?.or last
        rfl
      | some v =>
        show ((rest.take (j+1)).filterMap id).getLast?.or (Option.or (some v) last)
          = ((some v :: rest.take (j+1)).filterMap id).getLast?.or last
        rw [show ((some v :: rest.take (j+1)).filterMap id)
              = v :: (rest.take (j+1)).filterMap id from rfl,
          getLast?_cons_or, Option.or_assoc]

/-- C5: forward fill replaces each identifier cell by the last non-missing
value at or before it (so a missing cell gets the nearest preceding
non-missing identifier); a missing first cell stays missing, and a row
whose repaired identifier is missing is selected into no group. -/
theorem ffill_nearest_preceding :
    (∀ (xs : List (Option String)) (i : Nat), i < xs.length →
      (ffill xs).getD i none = ((xs.take (i+1)).filterMap id).getLast?) ∧
    (∀ xs : List (Option String), (ffill (none :: xs)).getD 0 none = none) ∧
    (∀ (ids : List (Option String)) (cells : List Cell) (k : String),
      selectGroup (none :: ids) cells k = selectGroup ids cells.tail k) := by
  refine ⟨?_, ?_, ?_⟩
  · intro xs i h
    have h2 := ffillFrom_getD xs none i h
    rw [ffill, h2]
    cases ((xs.take (i+1)).filterMap id).getLast? <;> rfl
  · intro xs
    rfl
  · intro ids cells k
    cases cells with
    | nil => simp [selectGroup, List.zip_nil_right]
    | cons c cs => rfl

/-- Witness for ffill_nearest_preceding at a two-cell column with a
missing second cell. -/
theorem ffill_nearest_preceding_witness :
    (ffill [ some ( "M1" ), none ]).getD 1 none
      = (([ some ( "M1" ), none ].take 2).filterMap id).getLast? :=
  ffill_nearest_preceding.1 [ some ( "M1" ), none ] 1 (by decide)

/-- Overwriting an existing key in the association list stores the new
value at the key's position. -/
theorem find?_overwrite (c : String) (k : AggKind) :
    ∀ d : List (String × AggKind), d.any (fun p => p.1 == c) = true →
      (d.map (fun p => if p.1 == c then (c, k) else p)).find? (fun p => p.1 == c)
        = some (c, k) := by
  intro d
  induction d with
  | nil =>
    intro h
    simp at h
  | cons e es ih =>
    intro h
    by_cases he : (e.1 == c) = true
    · rw [List.map_cons, if_pos he, List.find?_cons_of_pos _ (by simp)]
    · have h2 : es.any (fun p => p.1 == c) = true := by
        simpa [List.any_cons, he] using h
      rw [List.map_cons, if_neg he, List.find?_cons_of_neg _ (by simpa using he), ih h2]

/-- Dict assignment d[c] = k makes k the value found under key c. -/
theorem find?_setAgg_self (d : List (String × AggKind)) (c : String) (k : AggKind) :
    (setAgg d c k).find? (fun p => p.1 == c) = some (c, k) := by
  unfold setAgg
  by_cases h : d.any (fun p => p.1 == c) = true
  · rw [if_pos h]
    exact find?_overwrite c k d h
  · rw [if_neg h, List.find?_append]
    have hd : d.find? (fun p => p.1 == c) = none := by
      rw [List.find?_eq_none]
      intro p hp hpc
      exact h (List.any_eq_true.mpr ⟨p, hp, hpc⟩)
    rw [hd]
    simp

/-- Dict assignment d[c] = k leaves every other key's value unchanged. -/
theorem find?_setAgg_ne (d : List (String × AggKind)) (c c2 : String) (k : AggKind)
    (h : (c2 == c) = false) :
    (setAgg d c k).find? (fun p => p.1 == c2) = d.find? (fun p => p.1 == c2) := by
  have hcc : (c == c2) = false := by
    have h2 : c2 ≠ c := by simpa using h
    exact beq_false_of_ne (fun he => h2 he.symm)
  unfold setAgg
  by_cases ha : d.any (fun p => p.1 == c) = true
  · rw [if_pos ha]
    clear ha
    induction d with
    | nil => rfl
    | cons e es ih =>
      rw [List.map_cons]
      by_cases he : (e.1 == c) = true
      · have he2 : (e.1 == c2) = false := by
          have : e.1 = c := by simpa using he
          rw [this]
          exact hcc
        rw [if_pos he, List.find?_cons_of_neg _ (by simpa using hcc),
          List.find?_cons_of_neg _ (by simpa using he2), ih]
      · rw [if_neg he]
        by_cases hp : (e.1 == c2) = true
        · rw [List.find?_cons_of_pos (p := fun p : String × AggKind => p.1 == c2) _ hp,
            List.find?_cons_of_pos (p := fun p : String × AggKind => p.1 == c2) _ hp]
        · rw [List.find?_cons_of_neg (p := fun p : String × AggKind => p.1 == c2) _ (by simpa using hp),
            List.find?_cons_of_neg (p := fun p : String × AggKind => p.1 == c2) _ (by simpa using hp), ih]
  · rw [if_neg ha, List.find?_append]
    have h1 : ([(c, k)].find? (fun p => p.1 == c2)) = none := by
      simp [hcc]
    rw [h1]
    cases d.find? (fun p => p.1 == c2) <;> rfl

/-- The fill-in loop for the remaining columns never changes the value
already registered under a key. -/
theorem find?_addMissing (m : String) (cols : List String) :
    ∀ (d : List (String × AggKind)) (c : String) (x : String × AggKind),
      d.find? (fun p => p.1 == c) = some x →
      (addMissing m d cols).find? (fun p => p.1 == c) = some x := by
  induction cols with
  | nil =>
    intro d c x h
    exact h
  | cons c0 cs ih =>
    intro d c x h
    show (addMissing m
        (if c0 != m && !d.any (fun p => p.1 == c0) then d ++ [(c0, AggKind.first)] else d)
        cs).find? (fun p => p.1 == c) = some x
    apply ih
    by_cases hc : (c0 != m && !d.any (fun p => p.1 == c0)) = true
    · rw [if_pos hc, List.find?_append, h]
      rfl
    · rw [if_neg hc]
      exact h

/-- When one column carries both the quantity and the price role (and the
amount role is elsewhere), agg_dict registers it as "first": price
overwrites the earlier quantity "sum". -/
theorem buildAggDict_overlap_first (cols : List String) (m c : String) (ac : Option String)
    (hac : ac ≠ some c) :
    (buildAggDict cols m (some c) (some c) ac).find? (fun p => p.1 == c)
      = some (c, AggKind.first) := by
  unfold buildAggDict
  apply find?_addMissing
  cases ac with
  | none => exact find?_setAgg_self _ c AggKind.first
  | some a =>
    have hne : (c == a) = false := by
      exact beq_false_of_ne (fun he => hac (by rw [he]))
    rw [find?_setAgg_ne _ a c AggKind.sum hne]
    exact find?_setAgg_self _ c AggKind.first

/-- The quantity column keeps the "sum" reduction whenever the price role
is not detected onto the same column. -/
theorem buildAggDict_qty_sum (cols : List String) (m q : String) (pc ac : Option String)
    (hpq : pc ≠ some q) :
    (buildAggDict cols m (some q) pc ac).find? (fun p => p.1 == q)
      = some (q, AggKind.sum) := by
  unfold buildAggDict
  apply find?_addMissing
  have base := find?_setAgg_self ([] : List (String × AggKind)) q AggKind.sum
  cases pc with
  | none =>
    cases ac with
    | none => exact base
    | some a =>
      by_cases haq : a = q
      · subst haq
        exact find?_setAgg_self _ _ _
      · rw [find?_setAgg_ne _ a q AggKind.sum (beq_false_of_ne (fun he => haq he.symm))]
        exact base
  | some p =>
    have hpq2 : (q == p) = false :=
      beq_false_of_ne (fun he => hpq (by rw [he]))
    cases ac with
    | none =>
      rw [find?_setAgg_ne _ p q AggKind.first hpq2]
      exact base
    | some a =>
      by_cases haq : a = q
      · subst haq
        exact find?_setAgg_self _ _ _
      · rw [find?_setAgg_ne _ a q AggKind.sum (beq_false_of_ne (fun he => haq he.symm)),
          find?_setAgg_ne _ p q AggKind.first hpq2]
        exact base

/-- Searching a key-preserving image of an association list finds the image
of the original entry. -/
theorem find?_map_keyed (dict : List (String × AggKind)) (f : String × AggKind → String × Cell)
    (hf : ∀ p, (f p).1 = p.1) (c : String) :
    (dict.map f).find? (fun p => p.1 == c) = (dict.find? (fun p => p.1 == c)).map f := by
  induction dict with
  | nil => rfl
  | cons e es ih =>
    by_cases he : (e.1 == c) = true
    · rw [List.map_cons,
        List.find?_cons_of_pos (p := fun p : String × Cell => p.1 == c) _ (by show ((f e).1 == c) = true; rw [hf e]; exact he),
        List.find?_cons_of_pos (p := fun p : String × AggKind => p.1 == c) _ he]
      rfl
    · rw [List.map_cons,
        List.find?_cons_of_neg (p := fun p : String × Cell => p.1 == c) _ (by show ¬ ((f e).1 == c) = true; rw [hf e]; simpa using he),
        List.find?_cons_of_neg (p := fun p : String × AggKind => p.1 == c) _ (by simpa using he), ih]

/-- C10: when the same column is detected for both the quantity and the
price role (the amount role being absent or a different column), the later
"first" registration overwrites the earlier "sum" in agg_dict, so the
column is reduced first-wins and each group's reported quantity total is
the first contributing row's value rather than the group sum. -/
theorem dual_role_first_wins (t : RawTable) (m c : String) (ac : Option String)
    (hac : ac ≠ some c) (g : GRow) (hg : g ∈ groupedOf t m (some c) (some c) ac) :
    (buildAggDict t.cols m (some c) (some c) ac).find? (fun p => p.1 == c)
        = some (c, AggKind.first) ∧
    totalQtyOf g c = cellNum ((selectGroup (repairedIds t m)
        (workingCol t m (some c) (some c) ac (repairedIds t m) c) g.key).headD Cell.na) := by
  refine ⟨buildAggDict_overlap_first t.cols m c ac hac, ?_⟩
  simp only [groupedOf] at hg
  rcases List.mem_map.mp hg with ⟨k, hk, hgk⟩
  subst hgk
  unfold totalQtyOf lookupCell
  rw [find?_map_keyed _ _ (fun p => rfl) c,
    buildAggDict_overlap_first t.cols m c ac hac]
  rfl

/-- Witness for dual_role_first_wins: the column "UNIT QTY" matches both
the quantity keyword QTY and the price keyword UNIT; its group total is
the first row's 5, not the sum 8. -/
theorem dual_role_first_wins_witness :
    (buildAggDict [ "MODEL", "UNIT QTY" ] ( "MODEL" ) (some ( "UNIT QTY" )) (some ( "UNIT QTY" )) none).find?
        (fun p => p.1 == ( "UNIT QTY" : String )) = some (( "UNIT QTY" : String ), AggKind.first) ∧
    totalQtyOf { key := ( "A" ), cells := [ (( "UNIT QTY" : String ), Cell.num 5) ] } ( "UNIT QTY" )
      = cellNum ((selectGroup
          (repairedIds { cols := [ "MODEL", "UNIT QTY" ], rows := [ [ "A", "5" ], [ "A", "3" ] ] } ( "MODEL" ))
          (workingCol { cols := [ "MODEL", "UNIT QTY" ], rows := [ [ "A", "5" ], [ "A", "3" ] ] }
            ( "MODEL" ) (some ( "UNIT QTY" )) (some ( "UNIT QTY" )) none
            (repairedIds { cols := [ "MODEL", "UNIT QTY" ], rows := [ [ "A", "5" ], [ "A", "3" ] ] } ( "MODEL" ))
            ( "UNIT QTY" ))
          (( "A" : String ))).headD Cell.na) :=
  dual_role_first_wins { cols := [ "MODEL", "UNIT QTY" ], rows := [ [ "A", "5" ], [ "A", "3" ] ] }
    ( "MODEL" ) ( "UNIT QTY" ) none (by decide)
    { key := ( "A" ), cells := [ (( "UNIT QTY" : String ), Cell.num 5) ] }
    (by with_unfolding_all decide)

/-- Stable insertion permutes consing the element on. -/
theorem insertLe_perm {α : Type} (le : α → α → Bool) (x : α) :
    ∀ l : List α, (insertLe le x l).Perm (x :: l) := by
  intro l
  induction l with
  | nil => exact List.Perm.refl _
  | cons y ys ih =>
    unfold insertLe
    by_cases h : le x y = true
    · rw [if_pos h]
    · rw [if_neg h]
      exact (ih.cons y).trans (List.Perm.swap x y ys)

/-- Insertion sort permutes its input. -/
theorem sortLe_perm {α : Type} (le : α → α → Bool) :
    ∀ l : List α, (sortLe le l).Perm l := by
  intro l
  induction l with
  | nil => exact List.Perm.refl _
  | cons x xs ih => exact (insertLe_perm le x (sortLe le xs)).trans (ih.cons x)

/-- Group selection over one row: the row is kept when its identifier is
the group key. -/
theorem selectGroup_cons {α : Type} (i : Option String) (is : List (Option String))
    (x : α) (xs : List α) (k : String) :
    selectGroup (i :: is) (x :: xs) k
      = if (i == some k) = true then x :: selectGroup is xs k else selectGroup is xs k := by
  unfold selectGroup
  rw [List.zip_cons_cons, List.filter_cons]
  by_cases h : (i == some k) = true
  · simp [h]
  · simp [h]

/-- Selecting a group commutes with a columnwise map. -/
theorem selectGroup_map {α β : Type} (f : α → β) (k : String) :
    ∀ (ids : List (Option String)) (xs : List α),
      selectGroup ids (xs.map f) k = (selectGroup ids xs k).map f := by
  intro ids
  induction ids with
  | nil =>
    intro xs
    rfl
  | cons i is ih =>
    intro xs
    cases xs with
    | nil => simp [selectGroup, List.zip_nil_right]
    | cons x xs2 =>
      rw [List.map_cons, selectGroup_cons, selectGroup_cons]
      by_cases h : (i == some k) = true
      · rw [if_pos h, if_pos h, List.map_cons, ih xs2]
      · rw [if_neg h, if_neg h, ih xs2]

/-- Sum of a pointwise addition of two maps. -/
theorem sum_map_add {α : Type} (l : List α) (f g : α → Rat) :
    (l.map (fun x => f x + g x)).sum = (l.map f).sum + (l.map g).sum := by
  induction l with
  | nil => simp
  | cons x xs ih =>
    simp only [List.map_cons, List.sum_cons, ih]
    ring

/-- Sum of a constant-zero map. -/
theorem sum_map_zeroFn {α : Type} (l : List α) :
    (l.map (fun _ => (0 : Rat))).sum = 0 := by
  induction l with
  | nil => rfl
  | cons x xs ih => simp [ih]

/-- Summing an indicator over a duplicate-free key list that covers the
identifier yields the value exactly once. -/
theorem sum_if_single (keys : List String) (hnd : keys.Nodup) (a : Option String) (v : Rat)
    (hmem : ∀ u, a = some u → u ∈ keys) :
    (keys.map (fun k => if (a == some k) = true then v else 0)).sum
      = if a.isSome then v else 0 := by
  cases a with
  | none =>
    have h0 : (keys.map (fun k => if ((none : Option String) == some k) = true then v else 0))
        = keys.map (fun _ => (0 : Rat)) :=
      List.map_congr_left (fun k _ => rfl)
    rw [h0, sum_map_zeroFn]
    rfl
  | some u =>
    induction keys with
    | nil => exact absurd (hmem u rfl) (List.not_mem_nil u)
    | cons k0 ks ih =>
      rcases List.nodup_cons.mp hnd with ⟨hk0, hks⟩
      by_cases he : u = k0
      · subst he
        have hnotin : (ks.map (fun k => if ((some u : Option String) == some k) = true then v else 0))
            = ks.map (fun _ => (0 : Rat)) := by
          apply List.map_congr_left
          intro k hk
          have hne : ((some u : Option String) == some k) = (u == k) := rfl
          have : (u == k) = false := beq_false_of_ne (fun h2 => hk0 (h2 ▸ hk))
          rw [hne, this]
          rfl
        rw [List.map_cons, List.sum_cons, hnotin, sum_map_zeroFn]
        simp
      · have hmem2 : ∀ w, (some u : Option String) = some w → w ∈ ks := by
          intro w hw
          have hw2 : w = u := (Option.some.inj hw).symm
          subst hw2
          cases List.mem_cons.mp (hmem w rfl) with
          | inl h1 => exact absurd h1 he
          | inr h1 => exact h1
        have hh : (if ((some u : Option String) == some k0) = true then v else 0) = 0 := by
          have hne : ((some u : Option String) == some k0) = (u == k0) := rfl
          rw [hne, beq_false_of_ne he]
          rfl
        rw [List.map_cons, List.sum_cons, hh, ih hks hmem2]
        simp

/-- Grouped sums over a duplicate-free covering key list add up to the sum
over all rows with a non-missing identifier. -/
theorem partition_sum (keys : List String) (hnd : keys.Nodup) :
    ∀ L : List (Option String × Rat),
      (∀ p ∈ L, ∀ u, p.1 = some u → u ∈ keys) →
      (keys.map (fun k => ((L.filter (fun p => p.1 == some k)).map (fun p => p.2)).sum)).sum
        = ((L.filter (fun p => p.1.isSome)).map (fun p => p.2)).sum := by
  intro L
  induction L with
  | nil =>
    intro hL
    have h0 : (keys.map (fun k =>
        (((([] : List (Option String × Rat))).filter (fun p => p.1 == some k)).map (fun p => p.2)).sum))
        = keys.map (fun _ => (0 : Rat)) :=
      List.map_congr_left (fun k _ => rfl)
    rw [h0, sum_map_zeroFn]
    rfl
  | cons r L2 ih =>
    intro hL
    obtain ⟨a, v⟩ := r
    have hstep : ∀ k ∈ keys,
        ((((a, v) :: L2).filter (fun p => p.1 == some k)).map (fun p => p.2)).sum
          = (if (a == some k) = true then v else 0)
            + ((L2.filter (fun p => p.1 == some k)).map (fun p => p.2)).sum := by
      intro k _
      rw [List.filter_cons]
      by_cases h : (a == some k) = true
      · simp [h]
      · simp [h]
    have hmem1 : ∀ u, a = some u → u ∈ keys :=
      fun u hu => hL (a, v) (List.mem_cons_self _ _) u hu
    have hL2 : ∀ p ∈ L2, ∀ u, p.1 = some u → u ∈ keys :=
      fun p hp u hu => hL p (List.mem_cons_of_mem _ hp) u hu
    rw [List.map_congr_left hstep, sum_map_add, sum_if_single keys hnd a v hmem1, ih hL2,
      List.filter_cons]
    by_cases h : a.isSome = true
    · simp [h]
    · simp [h]

/-- Mapping cells back to numbers cancels the numeric embedding. -/
theorem map_cellNum_num (l : List Rat) : (l.map Cell.num).map cellNum = l := by
  induction l with
  | nil => rfl
  | cons x xs ih => simp [cellNum, ih]

/-- The aggregated quantity cell of a group is the sum of the group's
normalized quantity values whenever the quantity column keeps the "sum"
reduction (quantity column distinct from the identifier and price roles). -/
theorem grouped_qty_cell (t : RawTable) (m q : String) (pc ac : Option String)
    (hqm : q ≠ m) (hpq : pc ≠ some q) (g : GRow)
    (hg : g ∈ groupedOf t m (some q) pc ac) :
    totalQtyOf g q = (selectGroup (repairedIds t m)
        ((colValues t q).map coerceNumeric) g.key).sum := by
  simp only [groupedOf] at hg
  rcases List.mem_map.mp hg with ⟨k, hk, hgk⟩
  subst hgk
  unfold totalQtyOf lookupCell
  rw [find?_map_keyed _ _ (fun p => rfl) q, buildAggDict_qty_sum t.cols m q pc ac hpq]
  have hw : workingCol t m (some q) pc ac (repairedIds t m) q
      = ((colValues t q).map coerceNumeric).map Cell.num := by
    unfold workingCol
    rw [if_neg hqm, if_pos (by simp), List.map_map]
    rfl
  show cellNum (aggCell AggKind.sum (selectGroup (repairedIds t m)
      (workingCol t m (some q) pc ac (repairedIds t m) q) k)) = _
  rw [hw, selectGroup_map]
  show ((((selectGroup (repairedIds t m) ((colValues t q).map coerceNumeric) k)).map
      Cell.num).map cellNum).sum = _
  rw [map_cellNum_num]

/-- C7 (amended): provided the detected quantity column differs from the
identifier column and from the detected price column, the sum of the
per-group quantity totals over the aggregated rows equals the sum of the
normalized quantity column over the rows whose repaired identifier is
non-missing. -/
theorem grouped_qty_sum_preserved (t : RawTable) (m q : String) (pc ac : Option String)
    (hqm : q ≠ m) (hpq : pc ≠ some q) :
    ((groupedOf t m (some q) pc ac).map (fun g => totalQtyOf g q)).sum
      = ((((repairedIds t m).zip ((colValues t q).map coerceNumeric)).filter
          (fun p => p.1.isSome)).map (fun p => p.2)).sum := by
  have h1 : (groupedOf t m (some q) pc ac).map (fun g => totalQtyOf g q)
      = (groupedOf t m (some q) pc ac).map (fun g => (selectGroup (repairedIds t m)
          ((colValues t q).map coerceNumeric) g.key).sum) :=
    List.map_congr_left (fun g hg => grouped_qty_cell t m q pc ac hqm hpq g hg)
  have h2 : (groupedOf t m (some q) pc ac).map (fun g => (selectGroup (repairedIds t m)
        ((colValues t q).map coerceNumeric) g.key).sum)
      = (groupKeys (repairedIds t m)).map (fun k => (selectGroup (repairedIds t m)
          ((colValues t q).map coerceNumeric) k).sum) := by
    simp only [groupedOf]
    rw [List.map_map]
    exact List.map_congr_left (fun k _ => rfl)
  have hnd : (groupKeys (repairedIds t m)).Nodup := by
    unfold groupKeys
    exact ((sortLe_perm strLeB _).nodup_iff).mpr (List.nodup_dedup _)
  have hmem : ∀ p ∈ (repairedIds t m).zip ((colValues t q).map coerceNumeric),
      ∀ u, p.1 = some u → u ∈ groupKeys (repairedIds t m) := by
    intro p hp u hu
    obtain ⟨a, v⟩ := p
    have hpid : a ∈ repairedIds t m := (List.of_mem_zip hp).1
    have hm1 : u ∈ (repairedIds t m).filterMap id :=
      List.mem_filterMap.mpr ⟨some u, hu ▸ hpid, rfl⟩
    have hm2 : u ∈ ((repairedIds t m).filterMap id).dedup := List.mem_dedup.mpr hm1
    exact ((sortLe_perm strLeB _).mem_iff).mpr hm2
  rw [h1, h2]
  exact partition_sum (groupKeys (repairedIds t m)) hnd _ hmem

/-- C7 counterexample: on a table with columns MODEL and UNIT QTY the
quantity and price detections pick the same column, so the quantity
reduction is overwritten to "first" and the per-group quantity totals sum
to 5 while the normalized quantity column over non-missing rows sums
to 8. -/
theorem grouped_qty_sum_counterexample :
    detect_column [ "MODEL", "UNIT QTY" ] qtyKeywords = some ( "UNIT QTY" ) ∧
    detect_column [ "MODEL", "UNIT QTY" ] priceKeywords = some ( "UNIT QTY" ) ∧
    ¬ (((groupedOf { cols := [ "MODEL", "UNIT QTY" ], rows := [ [ "A", "5" ], [ "A", "3" ] ] }
            ( "MODEL" ) (some ( "UNIT QTY" )) (some ( "UNIT QTY" )) none).map
          (fun g => totalQtyOf g ( "UNIT QTY" ))).sum
        = ((((repairedIds { cols := [ "MODEL", "UNIT QTY" ], rows := [ [ "A", "5" ], [ "A", "3" ] ] }
                ( "MODEL" )).zip
              ((colValues { cols := [ "MODEL", "UNIT QTY" ], rows := [ [ "A", "5" ], [ "A", "3" ] ] }
                ( "UNIT QTY" )).map coerceNumeric)).filter
            (fun p => p.1.isSome)).map (fun p => p.2)).sum) := by
  with_unfolding_all decide

/-- Witness for grouped_qty_sum_preserved on a two-row table. -/
theorem grouped_qty_sum_preserved_witness :
    ((groupedOf { cols := [ "MODEL", "QTY" ], rows := [ [ "A", "2" ], [ "A", "3" ] ] }
          ( "MODEL" ) (some ( "QTY" )) none none).map (fun g => totalQtyOf g ( "QTY" ))).sum
      = ((((repairedIds { cols := [ "MODEL", "QTY" ], rows := [ [ "A", "2" ], [ "A", "3" ] ] }
              ( "MODEL" )).zip
            ((colValues { cols := [ "MODEL", "QTY" ], rows := [ [ "A", "2" ], [ "A", "3" ] ] }
              ( "QTY" )).map coerceNumeric)).filter
          (fun p => p.1.isSome)).map (fun p => p.2)).sum :=
  grouped_qty_sum_preserved _ ( "MODEL" ) ( "QTY" ) none none (by decide) (by decide)

/-- Characters with equal code points are equal. -/
theorem charEq_of_toNat_eq {a b : Char} (h : a.toNat = b.toNat) : a = b := by
  simpa [Char.ext_iff, UInt32.ext_iff] using h

/-- Code-point lexicographic comparison is total. -/
theorem lexLe_total : ∀ a b : List Char, lexLe a b = true ∨ lexLe b a = true := by
  intro a
  induction a with
  | nil =>
    intro b
    exact Or.inl rfl
  | cons x xs ih =>
    intro b
    cases b with
    | nil => exact Or.inr rfl
    | cons y ys =>
      by_cases hxy : (x == y) = true
      · have hyx : (y == x) = true := by
          have h2 : x = y := by simpa using hxy
          simp [h2]
        rcases ih ys with h | h
        · exact Or.inl (by simp [lexLe, hxy, h])
        · exact Or.inr (by simp [lexLe, hyx, h])
      · have hne : x ≠ y := by simpa using hxy
        have hxyf : (x == y) = false := beq_false_of_ne hne
        have hyxf : (y == x) = false := beq_false_of_ne (fun h2 => hne h2.symm)
        rcases Nat.lt_trichotomy x.toNat y.toNat with h | h | h
        · exact Or.inl (by simp [lexLe, hxyf, h])
        · exact absurd (charEq_of_toNat_eq h) hne
        · exact Or.inr (by simp [lexLe, hyxf, h])

/-- Code-point lexicographic comparison is transitive. -/
theorem lexLe_trans : ∀ a b c : List Char,
    lexLe a b = true → lexLe b c = true → lexLe a c = true := by
  intro a
  induction a with
  | nil =>
    intro b c h1 h2
    rfl
  | cons x xs ih =>
    intro b c h1 h2
    cases b with
    | nil => simp [lexLe] at h1
    | cons y ys =>
      cases c with
      | nil => simp [lexLe] at h2
      | cons z zs =>
        by_cases hxy : (x == y) = true
        · have hxy2 : x = y := by simpa using hxy
          subst hxy2
          simp only [lexLe, beq_self_eq_true, if_true] at h1
          by_cases hyz : (x == z) = true
          · have h3 : x = z := by simpa using hyz
            subst h3
            simp only [lexLe, beq_self_eq_true, if_true] at h2 ⊢
            exact ih ys zs h1 h2
          · have hyzf : (x == z) = false := beq_false_of_ne (by simpa using hyz)
            simp only [lexLe, hyzf, Bool.false_eq_true, if_false] at h2 ⊢
            exact h2
        · have hne : x ≠ y := by simpa using hxy
          have hxyf : (x == y) = false := beq_false_of_ne hne
          simp only [lexLe, hxyf, Bool.false_eq_true, if_false, decide_eq_true_eq] at h1
          by_cases hyz : (y == z) = true
          · have h3 : y = z := by simpa using hyz
            subst h3
            simp only [lexLe, hxyf, Bool.false_eq_true, if_false, decide_eq_true_eq]
            exact h1
          · have hyzf : (y == z) = false := beq_false_of_ne (by simpa using hyz)
            simp only [lexLe, hyzf, Bool.false_eq_true, if_false, decide_eq_true_eq] at h2
            have hxz : x.toNat < z.toNat := Nat.lt_trans h1 h2
            have hxzf : (x == z) = false := beq_false_of_ne
              (fun he => absurd (he ▸ hxz) (Nat.lt_irrefl _))
            simp only [lexLe, hxzf, Bool.false_eq_true, if_false, decide_eq_true_eq]
            exact hxz

/-- Stable insertion with a total transitive comparison keeps a pairwise
ordered list pairwise ordered. -/
theorem pairwise_insertLe {α : Type} (le : α → α → Bool)
    (htot : ∀ a b, le a b = true ∨ le b a = true)
    (htr : ∀ a b c, le a b = true → le b c = true → le a c = true) (x : α) :
    ∀ l : List α, l.Pairwise (fun a b => le a b = true) →
      (insertLe le x l).Pairwise (fun a b => le a b = true) := by
  intro l
  induction l with
  | nil =>
    intro _
    exact List.pairwise_singleton _ x
  | cons y ys ih =>
    intro hp
    rcases List.pairwise_cons.mp hp with ⟨hy, hys⟩
    unfold insertLe
    by_cases h : le x y = true
    · rw [if_pos h]
      apply List.pairwise_cons.mpr
      refine ⟨?_, hp⟩
      intro z hz
      rcases List.mem_cons.mp hz with h1 | h1
      · rw [h1]
        exact h
      · exact htr x y z h (hy z h1)
    · rw [if_neg h]
      apply List.pairwise_cons.mpr
      constructor
      · intro z hz
        rcases List.mem_cons.mp ((insertLe_perm le x ys).mem_iff.mp hz) with h1 | h1
        · rw [h1]
          rcases htot x y with h2 | h2
          · exact absurd h2 h
          · exact h2
        · exact hy z h1
      · exact ih hys

/-- Insertion sort with a total transitive comparison sorts. -/
theorem pairwise_sortLe {α : Type} (le : α → α → Bool)
    (htot : ∀ a b, le a b = true ∨ le b a = true)
    (htr : ∀ a b c, le a b = true → le b c = true → le a c = true) :
    ∀ l : List α, (sortLe le l).Pairwise (fun a b => le a b = true) := by
  intro l
  induction l with
  | nil => exact List.Pairwise.nil
  | cons x xs ih => exact pairwise_insertLe le htot htr x _ ih

/-- The grouped table comes out of groupby in ascending key order. -/
theorem grouped_pairwise_key (t : RawTable) (m : String) (qc pc ac : Option String) :
    (groupedOf t m qc pc ac).Pairwise (fun a b => strLeB a.key b.key = true) := by
  unfold groupedOf
  apply List.pairwise_map.mpr
  exact pairwise_sortLe strLeB (fun a b => lexLe_total a.data b.data)
    (fun a b c => lexLe_trans a.data b.data c.data) ((repairedIds t m).filterMap id).dedup

/-- Both filters preserve the ascending key order of the grouped table. -/
theorem filtered_pairwise_key (t : RawTable) (m : String) (qc pc ac : Option String)
    (minQty : Rat) (pat : String) :
    (filterSearch (filterMinQty (groupedOf t m qc pc ac) qc minQty) pat).Pairwise
      (fun a b => strLeB a.key b.key = true) := by
  have h1 := grouped_pairwise_key t m qc pc ac
  have h2 : (filterMinQty (groupedOf t m qc pc ac) qc minQty).Pairwise
      (fun a b => strLeB a.key b.key = true) := by
    cases qc with
    | none => exact h1
    | some q =>
      by_cases h : (0 : Rat) < minQty
      · simpa [filterMinQty, h] using h1.filter (fun g => decide (minQty ≤ totalQtyOf g q))
      · simpa [filterMinQty, h] using h1
  unfold filterSearch
  by_cases h : pat = emptyStr
  · rw [if_pos h]
    exact h2
  · rw [if_neg h]
    exact h2.filter _

/-- The fallback branch of the sort step orders by the identifier. -/
theorem sortRows_model (rows : List GRow) (qc ac : Option String) :
    sortRows rows qc ac SortBy.model = sortLe (fun a b => strLeB a.key b.key) rows := by
  cases qc <;> cases ac <;> rfl

/-- The quantity branch of the sort step orders by Total_QTY descending. -/
theorem sortRows_totalQ (rows : List GRow) (q : String) (ac : Option String) :
    sortRows rows (some q) ac SortBy.totalQ
      = sortLe (fun a b => decide (totalQtyOf b q ≤ totalQtyOf a q)) rows := by
  cases ac <;> rfl

/-- The amount branch of the sort step orders by Total_Amount descending. -/
theorem sortRows_totalA (rows : List GRow) (qc : Option String) (am : String) :
    sortRows rows qc (some am) SortBy.totalA
      = sortLe (fun x y => decide (totalAmountOf y am ≤ totalAmountOf x am)) rows := by
  cases qc <;> rfl

/-- C8 (amended): the default sort orders the aggregated rows ascending by
identifier; the Total_QTY and Total_Amount sorts order them descending on
the numeric key; each sorted output is a permutation of the filtered
aggregated rows.  No order is asserted among rows that tie on a numeric
key: the implementation's unstable quicksort guarantees none, and the
counterexample shows it is in particular not first-appearance order. -/
theorem mergedRows_sort_order (t : RawTable) (m : String) (qc pc ac : Option String)
    (minQty : Rat) (pat : String) :
    ((mergedRows t m qc pc ac minQty pat SortBy.model).Pairwise
        (fun a b => strLeB a.key b.key = true) ∧
      (mergedRows t m qc pc ac minQty pat SortBy.model).Perm
        (filterSearch (filterMinQty (groupedOf t m qc pc ac) qc minQty) pat)) ∧
    (∀ q, qc = some q →
      (mergedRows t m qc pc ac minQty pat SortBy.totalQ).Pairwise
          (fun a b => totalQtyOf b q ≤ totalQtyOf a q) ∧
        (mergedRows t m qc pc ac minQty pat SortBy.totalQ).Perm
          (filterSearch (filterMinQty (groupedOf t m qc pc ac) qc minQty) pat)) ∧
    (∀ am, ac = some am →
      (mergedRows t m qc pc ac minQty pat SortBy.totalA).Pairwise
          (fun a b => totalAmountOf b am ≤ totalAmountOf a am) ∧
        (mergedRows t m qc pc ac minQty pat SortBy.totalA).Perm
          (filterSearch (filterMinQty (groupedOf t m qc pc ac) qc minQty) pat)) := by
  refine ⟨⟨?_, ?_⟩, ?_, ?_⟩
  · unfold mergedRows
    rw [sortRows_model]
    exact pairwise_sortLe (fun a b : GRow => strLeB a.key b.key)
      (fun a b => lexLe_total a.key.data b.key.data)
      (fun a b c => lexLe_trans a.key.data b.key.data c.key.data) _
  · unfold mergedRows
    rw [sortRows_model]
    exact sortLe_perm _ _
  · intro q hq
    subst hq
    unfold mergedRows
    rw [sortRows_totalQ]
    constructor
    · have h := pairwise_sortLe (fun a b : GRow => decide (totalQtyOf b q ≤ totalQtyOf a q))
        (fun a b => by
          rcases le_total (totalQtyOf b q) (totalQtyOf a q) with h1 | h1
          · exact Or.inl (decide_eq_true h1)
          · exact Or.inr (decide_eq_true h1))
        (fun a b c h1 h2 => decide_eq_true
          (le_trans (of_decide_eq_true h2) (of_decide_eq_true h1)))
        (filterSearch (filterMinQty (groupedOf t m (some q) pc ac) (some q) minQty) pat)
      exact h.imp (fun hab => of_decide_eq_true hab)
    · exact sortLe_perm _ _
  · intro am ham
    subst ham
    unfold mergedRows
    rw [sortRows_totalA]
    constructor
    · have h := pairwise_sortLe (fun a b : GRow => decide (totalAmountOf b am ≤ totalAmountOf a am))
        (fun a b => by
          rcases le_total (totalAmountOf b am) (totalAmountOf a am) with h1 | h1
          · exact Or.inl (decide_eq_true h1)
          · exact Or.inr (decide_eq_true h1))
        (fun a b c h1 h2 => decide_eq_true
          (le_trans (of_decide_eq_true h2) (of_decide_eq_true h1)))
        (filterSearch (filterMinQty (groupedOf t m qc pc (some am)) qc minQty) pat)
      exact h.imp (fun hab => of_decide_eq_true hab)
    · exact sortLe_perm _ _

/-- Witness for mergedRows_sort_order: quantity sort on a two-group
table. -/
theorem mergedRows_sort_order_witness :
    (mergedRows { cols := [ "MODEL", "QTY" ], rows := [ [ "B", "5" ], [ "A", "7" ] ] }
        ( "MODEL" ) (some ( "QTY" )) none none 0 emptyStr SortBy.totalQ).Pairwise
      (fun a b => totalQtyOf b ( "QTY" ) ≤ totalQtyOf a ( "QTY" )) ∧
    (mergedRows { cols := [ "MODEL", "QTY" ], rows := [ [ "B", "5" ], [ "A", "7" ] ] }
        ( "MODEL" ) (some ( "QTY" )) none none 0 emptyStr SortBy.totalQ).Perm
      (filterSearch (filterMinQty
        (groupedOf { cols := [ "MODEL", "QTY" ], rows := [ [ "B", "5" ], [ "A", "7" ] ] }
          ( "MODEL" ) (some ( "QTY" )) none none) (some ( "QTY" )) 0) emptyStr) :=
  (mergedRows_sort_order { cols := [ "MODEL", "QTY" ], rows := [ [ "B", "5" ], [ "A", "7" ] ] }
      ( "MODEL" ) (some ( "QTY" )) none none 0 emptyStr).2.1 ( "QTY" ) rfl

/-- C8 counterexample: two groups tie on Total_QTY; the output lists them
in ascending identifier order A, B although their first appearance order
in the input is B, A, so ties are not broken by first appearance. -/
theorem mergedRows_tie_not_first_appearance :
    (runPipeline { cols := [ "MODEL", "QTY" ], rows := [ [ "B", "5" ], [ "A", "5" ] ] }
        0 emptyStr SortBy.totalQ).toOption.map (fun l => l.map (fun g => g.key))
      = some [ "A", "B" ] ∧
    ((repairedIds { cols := [ "MODEL", "QTY" ], rows := [ [ "B", "5" ], [ "A", "5" ] ] }
        ( "MODEL" )).filterMap id).dedup = [ "B", "A" ] ∧
    (runPipeline { cols := [ "MODEL", "QTY" ], rows := [ [ "B", "5" ], [ "A", "5" ] ] }
        0 emptyStr SortBy.totalQ).toOption.map (fun l => l.map (fun g => totalQtyOf g ( "QTY" )))
      = some [ 5, 5 ] := by
  with_unfolding_all decide
